import Mathlib

/-!
Verification development for the sugar_grok LLM gateway.

Shallow embedding of the gateway's core components, translated from the
Python source:

* `services/queue/memory_queue.py`  — in-memory fallback queue
* `services/queue/redis_queue.py`   — persistent (Redis) queue, scores,
  response store, background reconciliation
* `services/failover_manager.py`    — provider failover state machine
* `services/processor.py`           — dispatcher retry budget
* `core/rate_limiter.py`            — global token bucket
* `utils/api_key_manager.py`        — per-key sliding-window rate budget
* `services/llm/grok_api.py`        — provider adapter error handling

Machine floats are modelled as rationals, wall-clock times as rational
numbers of seconds, and Python dicts as association lists with
overwrite-on-insert semantics.  Time-based expiry (TTLs) is not modelled:
all statements are about the store as observed before any expiry fires.
-/

namespace SugarGrok

/-! ### Response stores (`memory_queue.py`, `redis_queue.py`)

Both backends keep responses in a key→string map.  `MemoryQueueManager`
uses a Python dict `self.responses`; `RedisQueueManager` uses Redis string
keys `response:{id}` written with `setex`.  Either way an insert for an
existing key overwrites the old value.  A dict is modelled as an
association list where insertion removes any previous binding for the key
and appends the new one. -/

/-- Python dict assignment `d[k] = v`: overwrite any existing binding. -/
def dictInsert (m : List (String × String)) (k v : String) : List (String × String) :=
  (m.filter (fun kv => kv.1 != k)) ++ [(k, v)]

/-- `MemoryQueueManager.store_response`: `self.responses[request_id] = json.dumps(response_data)`.
The JSON-encoded envelope is kept opaque as a string. -/
def memStoreResponse (resp : List (String × String)) (id data : String) :
    List (String × String) :=
  dictInsert resp id data

/-- `MemoryQueueManager.get_response`: `self.responses.get(request_id)` followed by a
truthiness test (`if response_data:`), so an empty string reads as absent. -/
def memGetResponse (resp : List (String × String)) (id : String) : Option String :=
  match resp.lookup id with
  | some v => if v = "" then none else some v
  | none => none

/-- `RedisQueueManager.store_response`: `setex(f"{self.response_prefix}{request_id}", expiry, json.dumps(data))`.
`setex` overwrites an existing key; expiry is not modelled. -/
def redisStoreResponse (kv : List (String × String)) (pre id data : String) :
    List (String × String) :=
  dictInsert kv (pre ++ id) data

/-- `RedisQueueManager.get_response`: `redis.get(response_key)` followed by the same
truthiness test. -/
def redisGetResponse (kv : List (String × String)) (pre id : String) : Option String :=
  match kv.lookup (pre ++ id) with
  | some v => if v = "" then none else some v
  | none => none

/-! ### Dispatcher retry budget (`processor.py`) and backup parsing
(`failover_manager.py`) -/

/-- Python `str.split(sep)` on the character list: splitting the empty
string yields one empty field, and adjacent separators yield empty
fields. -/
def pySplitList (sep : Char) : List Char → List (List Char)
  | [] => [[]]
  | c :: cs =>
    match pySplitList sep cs with
    | [] => [[c]]
    | h :: t => if c = sep then [] :: h :: t else (c :: h) :: t

/-- Python `s.split(sep)` for a one-character separator. -/
def pySplit (sep : Char) (s : String) : List String :=
  (pySplitList sep s.toList).map (fun cs => String.mk cs)

/-- Python `s.strip()`: drop leading and trailing whitespace. -/
def pyStrip (s : String) : String :=
  String.mk (((s.toList.dropWhile Char.isWhitespace).reverse.dropWhile
    Char.isWhitespace).reverse)

/-- `FailoverManager._parse_failover_providers`:
`if not providers_str: return []` then
`[p.strip() for p in providers_str.split(",") if p.strip()]`. -/
def parseFailoverProviders (s : String) : List String :=
  if s = "" then []
  else ((pySplit ',' s).map pyStrip).filter (fun p => p ≠ "")

/-- `process_queue_item` line 32:
`max_retries = len(settings.FAILOVER_PROVIDERS.split(",")) + 1`.
Note this splits the raw string: Python `"".split(",") == [""]`, and
blank fields count. -/
def processorMaxRetries (s : String) : Nat :=
  (pySplit ',' s).length + 1

/-! ### Memory queue order (`memory_queue.py`)

`MemoryQueueManager` wraps a single `asyncio.Queue` (FIFO).  `enqueue`
builds a payload from `request_data` alone — the `priority` parameter is
never read — and `put`s it at the tail.  `priority_enqueue` rebuilds the
queue with the new item first, followed by the old items in order.
`dequeue` pops the head.  Items are kept opaque. -/

/-- `MemoryQueueManager.enqueue`: append at the tail; `pr` is the unused
`priority` parameter. -/
def memEnqueue (q : List α) (item : α) (pr : Int) : List α :=
  q ++ [item]

/-- `MemoryQueueManager.priority_enqueue`: new queue holding `item` first,
then the previous items in their old order. -/
def memPriorityEnqueue (q : List α) (item : α) : List α :=
  item :: q

/-- `MemoryQueueManager.dequeue`: pop the head, `none` when empty. -/
def memDequeue : List α → Option (α × List α)
  | [] => none
  | x :: xs => some (x, xs)

/-- Repeatedly `dequeue` until empty, collecting the items in pop order. -/
def memDrain : List α → List α
  | [] => []
  | x :: xs => x :: memDrain xs

/-- Run a sequence of `enqueue` calls (item, priority) from a given queue. -/
def memEnqueueAll (q : List α) (xs : List (α × Int)) : List α :=
  xs.foldl (fun acc ip => memEnqueue acc ip.1 ip.2) q

/-! ### Failover manager (`failover_manager.py`, plus its mutators in
`api/routes.py` and `services/health_checker.py`)

State fields follow `FailoverManager._initialize`: the primary provider,
the parsed backup list, the current provider, the `in_failover_mode`
flag, per-provider availability and failure counts (Python dicts,
modelled as total maps), the failure threshold and the enable flag.
`last_check` timestamps only gate when recovery probes run, never what
they do, so they are omitted and probe outcomes are events. -/

structure FMState where
  primary : String
  failoverProviders : List String
  current : String
  mode : Bool
  avail : String → Bool
  counts : String → Nat
  threshold : Nat
  enableFailover : Bool

/-- Update one entry of a provider-indexed map (`d[p] = v`). -/
def updF (f : String → β) (k : String) (v : β) : String → β :=
  fun q => if q = k then v else f q

/-- `FailoverManager._switch_to_next_available_provider`.
When the primary is available the code returns only if the current
provider differs from the primary; otherwise it falls through to the
backup scan.  With no available backup it sets the current provider back
to the primary and leaves `in_failover_mode` untouched. -/
def switchToNext (s : FMState) : FMState :=
  if s.avail s.primary && s.current != s.primary then
    { s with current := s.primary, mode := false }
  else
    match s.failoverProviders.find? (fun p => s.avail p) with
    | some b => { s with current := b, mode := true }
    | none => { s with current := s.primary }

/-- `FailoverManager._mark_provider_unavailable` (timestamp omitted). -/
def markUnavailable (p : String) (s : FMState) : FMState :=
  { s with avail := updF s.avail p false }

/-- `FailoverManager.report_failure`: increment the failure count; at the
threshold mark the provider unavailable and, if it is the current
provider, rotate. -/
def reportFailure (p : String) (s : FMState) : FMState :=
  if !s.enableFailover then s
  else
    let s1 := { s with counts := updF s.counts p (s.counts p + 1) }
    if s.threshold ≤ s1.counts p then
      let s2 := markUnavailable p s1
      if p == s2.current then switchToNext s2 else s2
    else s1

/-- `FailoverManager.report_success`: reset the failure count; if the
provider was unavailable mark it available, and if it is the primary
while the current provider differs, switch back to the primary and leave
failover mode. -/
def reportSuccess (p : String) (s : FMState) : FMState :=
  let s1 := { s with counts := updF s.counts p 0 }
  if !s.avail p then
    let s2 := { s1 with avail := updF s1.avail p true }
    if p == s.primary && s.current != s.primary then
      { s2 with current := s.primary, mode := false }
    else s2
  else s1

/-- `FailoverManager._check_provider_recovery` with the probe outcome
passed in: on a healthy probe of an unavailable provider, mark available
and reset counts; if it is the primary while in failover mode, switch
back.  A failed or crashing probe only touches `last_check`. -/
def checkRecovery (p : String) (healthy : Bool) (s : FMState) : FMState :=
  if s.avail p then s
  else if healthy then
    let s1 := { s with avail := updF s.avail p true, counts := updF s.counts p 0 }
    if p == s.primary && s.mode then { s1 with current := s.primary, mode := false }
    else s1
  else s

/-- `POST /system/force-failover/{provider}` (`routes.py` 115-132):
set the current provider and recompute `in_failover_mode`. -/
def forceFailover (p : String) (s : FMState) : FMState :=
  { s with current := p, mode := p != s.primary }

/-- `POST /system/reset-provider/{provider}` (`routes.py` 151-158). -/
def resetProvider (p : String) (s : FMState) : FMState :=
  { s with avail := updF s.avail p true, counts := updF s.counts p 0 }

/-- Health-checker probe pass (`health_checker.py` 94-95, 164-167). -/
def probePass (p : String) (s : FMState) : FMState :=
  { s with avail := updF s.avail p true, counts := updF s.counts p 0 }

/-- Health-checker probe fail (`health_checker.py` 98-99, 105-106). -/
def probeFail (p : String) (s : FMState) : FMState :=
  { s with avail := updF s.avail p false, counts := updF s.counts p (s.counts p + 1) }

/-- Events that mutate the failover manager's provider state anywhere in
the codebase. -/
inductive FMEvent where
  | success (p : String)
  | failure (p : String)
  | recovery (p : String) (healthy : Bool)
  | force (p : String)
  | reset (p : String)
  | pass (p : String)
  | fail (p : String)
  | rotate

def applyEvent (s : FMState) : FMEvent → FMState
  | .success p => reportSuccess p s
  | .failure p => reportFailure p s
  | .recovery p healthy => checkRecovery p healthy s
  | .force p => forceFailover p s
  | .reset p => resetProvider p s
  | .pass p => probePass p s
  | .fail p => probeFail p s
  | .rotate => switchToNext s

def runEvents (s0 : FMState) (es : List FMEvent) : FMState :=
  es.foldl applyEvent s0

/-- `FailoverManager._initialize`: start on the primary, not in failover
mode, all providers available with zero failures. -/
def initState (primary : String) (failovers : List String)
    (threshold : Nat) (enable : Bool) : FMState :=
  { primary := primary
    failoverProviders := failovers
    current := primary
    mode := false
    avail := fun _ => true
    counts := fun _ => 0
    threshold := threshold
    enableFailover := enable }

/-! ### Token-bucket rate limiter (`core/rate_limiter.py`)

Float arithmetic is modelled over the rationals and wall time as an
explicit parameter: each `acquire` happens at an instant `now`, and each
`asyncio.sleep d` advances `now` by exactly `d`.  `wait_for_token` is a
loop; it is embedded with fuel, returning `none` when the fuel runs out
before the loop does. -/

structure RLState where
  tokens : ℚ
  lastRefill : ℚ
  rate : ℚ
deriving DecidableEq, Repr

/-- `TokenBucketRateLimiter.acquire` at instant `now`: refill
`elapsed * rate` tokens capped at `rate`, then try to consume one. -/
def acquire (s : RLState) (now : ℚ) : Bool × RLState :=
  let tokens' := min s.rate (s.tokens + (now - s.lastRefill) * s.rate)
  if 1 ≤ tokens' then (true, { s with tokens := tokens' - 1, lastRefill := now })
  else (false, { s with tokens := tokens', lastRefill := now })

/-- The sleep between failed acquires: `min(1.0 / self.rate, 0.5)`. -/
def sleepInterval (rate : ℚ) : ℚ :=
  min (1 / rate) (1 / 2)

/-- `TokenBucketRateLimiter.wait_for_token(max_wait_time)` started at
`start`, with the current instant `now` and remaining loop fuel.
Returns the outcome, the instant at which the call returns, and the
final bucket state. -/
def waitForToken : Nat → RLState → ℚ → ℚ → ℚ → Option (Bool × ℚ × RLState)
  | 0, _, _, _, _ => none
  | fuel + 1, s, start, now, maxWait =>
    let r := acquire s now
    if r.1 then some (true, now, r.2)
    else if maxWait < now - start then some (false, now, r.2)
    else waitForToken fuel r.2 start (now + sleepInterval r.2.rate) maxWait

/-! ### Per-key sliding window (`utils/api_key_manager.py`)

`APIKeyManager.get_next_key` keeps, per key, a list of timestamps of the
accepts that used that key.  On considering a key at instant `now` it
prunes entries with `now - ts > 1.0`, accepts the key only if the pruned
window holds fewer than `RATE_LIMIT_RPS` entries, and on accept appends
`now`.  The per-key trace of successful accepts is modelled directly. -/

/-- `timestamps = [ts for ts in timestamps if now - ts <= 1.0]`. -/
def pruneWindow (w : List ℚ) (now : ℚ) : List ℚ :=
  w.filter (fun ts => decide (now - ts ≤ 1))

/-- One accept of a key at instant `now` under budget `R`: prune, check
the window length, append `now` on accept. -/
def keyAccept (R : Nat) (w : List ℚ) (now : ℚ) : Option (List ℚ) :=
  let w' := pruneWindow w now
  if w'.length < R then some (w' ++ [now]) else none

/-- Fold a trace of accept instants for one key through `keyAccept`;
`some` exactly when every accept in the trace was admitted. -/
def runKey (R : Nat) (w : List ℚ) : List ℚ → Option (List ℚ)
  | [] => some w
  | t :: ts =>
    match keyAccept R w t with
    | some w' => runKey R w' ts
    | none => none

/-- Number of trace entries inside the closed 1-second window `[a, a+1]`. -/
def countInWindow (ts : List ℚ) (a : ℚ) : Nat :=
  ts.countP (fun t => decide (a ≤ t ∧ t ≤ a + 1))

/-- A trace of accepts for one key is valid when, at each accept, the
count of earlier accepts within the last second (over the full history)
is below the budget.  For nondecreasing traces this matches the pruned
stored window the code keeps (see `runKey_valid`). -/
def ValidHist (R : Nat) : List ℚ → List ℚ → Prop
  | _, [] => True
  | hist, t :: ts =>
    hist.countP (fun x => decide (t - x ≤ 1)) < R ∧ ValidHist R (hist ++ [t]) ts

/-- The one-directional failover invariant that does survive every event
(see C2). -/
def FMInv (s : FMState) : Prop :=
  s.current ≠ s.primary → s.mode = true

/-! ### Persistent queue scores (`services/queue/redis_queue.py`)

Queue members are JSON payloads in a Redis sorted set; lower score pops
first.  `enqueue` clamps the priority to `[0, 100]` and scores
`priority * 10^13 + int(timestamp * 1000)`; `priority_enqueue` scores a
retried item by its original `timestamp` (seconds).  The sorted set is
modelled as a list of items with a score function, `zadd` as append
(payload ids are unique so members never collide), and `zpopmin` as
extraction of the first item of minimal score. -/

/-- A queue member: a fresh `enqueue` payload carries its (already
clamped) priority and `time.time()` timestamp; a `priority_enqueue`
retry is scored by the original payload timestamp alone. -/
inductive QItem where
  | fresh (pr : Int) (ts : ℚ)
  | retry (ts : ℚ)
deriving DecidableEq, Repr

/-- `priority = max(0, min(100, priority))`. -/
def clampPriority (p : Int) : Int :=
  max 0 (min 100 p)

/-- `ts_ms = int(payload["timestamp"] * 1000)` (timestamps are positive,
so `int` truncation is the floor). -/
def tsMs (ts : ℚ) : Int :=
  ⌊ts * 1000⌋

/-- The Redis score of a member: `priority * 10**13 + ts_ms` for fresh
items, the raw `timestamp` for retries. -/
def score : QItem → ℚ
  | .fresh p ts => ((p * 10 ^ 13 + tsMs ts : Int) : ℚ)
  | .retry ts => ts

/-- `zpopmin`: remove one item of minimal score (the first such in list
order; equal-score tie-breaking by member string is not constrained by
the claims). -/
def extractMin : List QItem → Option (QItem × List QItem)
  | [] => none
  | x :: xs =>
    match extractMin xs with
    | none => some (x, [])
    | some mr =>
      if score x ≤ score mr.1 then some (x, xs) else some (mr.1, x :: mr.2)

/-- Queue operations: `enqueue(data, priority)` at a timestamp,
`priority_enqueue(item)` of a retry carrying its original timestamp, and
`dequeue()`. -/
inductive QOp where
  | enq (p : Int) (ts : ℚ)
  | penq (ts : ℚ)
  | deq
deriving DecidableEq, Repr

/-- Apply one queue operation to the sorted-set contents. -/
def applyQOp (q : List QItem) : QOp → List QItem
  | .enq p ts => q ++ [.fresh (clampPriority p) ts]
  | .penq ts => q ++ [.retry ts]
  | .deq =>
    match extractMin q with
    | none => q
    | some mr => mr.2

/-- Run a sequence of queue operations from the empty queue. -/
def runQOps (ops : List QOp) : List QItem :=
  ops.foldl applyQOp []

/-- Timestamps produced by `time.time()` in any realistic execution:
at least 10^9 s (post-2001) and below 10^10 s (pre-2286), so
`ts_ms ∈ [10^12, 10^13)`. -/
def RealisticTs (ts : ℚ) : Prop :=
  10 ^ 9 ≤ ts ∧ ts < 10 ^ 10

/-- A well-formed queue member: realistic timestamp, and (for fresh
items) a priority already clamped to `[0, 100]`. -/
def WFItem : QItem → Prop
  | .fresh p ts => 0 ≤ p ∧ p ≤ 100 ∧ RealisticTs ts
  | .retry ts => RealisticTs ts

/-- A queue operation whose timestamp input is realistic. -/
def WFOp : QOp → Prop
  | .enq _ ts => RealisticTs ts
  | .penq ts => RealisticTs ts
  | .deq => True

/-- The order the specification claims for dequeues: retries precede all
fresh items; retries among themselves ascend by original enqueue
timestamp; fresh items ascend by (priority, enqueue-time-ms). -/
def claimLT : QItem → QItem → Prop
  | .retry t1, .retry t2 => t1 < t2
  | .retry _, .fresh _ _ => True
  | .fresh _ _, .retry _ => False
  | .fresh p1 t1, .fresh p2 t2 => p1 < p2 ∨ (p1 = p2 ∧ tsMs t1 < tsMs t2)

/-! ### Background reconciliation (`RedisQueueManager._background_sync`)

Once Redis answers a ping, the task takes the memory queue out of the
manager (`self.memory_queue = None`), dequeues every item and `zadd`s it
back with score `int(time.time() * 1000) + 10^14`.  The drain is
modelled with one millisecond clock reading per write. -/

/-- Reconciliation score for a write at `tms` milliseconds:
`score = int(time.time() * 1000); score += 10**14`. -/
def syncScore (tms : Int) : ℚ :=
  ((tms + 10 ^ 14 : Int) : ℚ)

/-- The `zadd` writes issued by `_background_sync` when draining the
memory queue `mem`, with `times` the millisecond clock readings of the
successive writes. -/
def syncWrites (mem : List QItem) (times : List Int) : List (QItem × ℚ) :=
  List.zipWith (fun i t => (i, syncScore t)) mem times

/-- `_background_sync` drains the memory queue to exhaustion and clears
the secondary reference: the final memory queue is empty. -/
def syncResult (mem : List QItem) (times : List Int) :
    List (QItem × ℚ) × List QItem :=
  (syncWrites mem times, [])

/-! ### Grok adapter key invalidation (`services/llm/grok_api.py`,
`utils/api_key_manager.py`)

On an AUTH-classified error (`"authentication"` or `"api key"` in the
message) `GrokAPIService.call_api` runs
`await self.key_manager.mark_key_invalid("grok", api_key)`.  The methods
`APIKeyManager` actually defines are listed below; Python resolves a
missing attribute to an `AttributeError`, modelled as `none`. -/

/-- The methods defined on `APIKeyManager` (`utils/api_key_manager.py`). -/
def apiKeyManagerMethods : List String :=
  ["_initialize", "_parse_keys", "get_next_key", "get_key_stats",
   "_mask_key", "add_key", "remove_key"]

/-- Python attribute lookup on an object with the given method table:
`some` on a hit, `none` (`AttributeError`) on a miss. -/
def lookupMethod (methods : List String) (name : String) : Option String :=
  if name ∈ methods then some name else none

/-- The attribute `call_api`'s AUTH handler invokes on the key manager
(`grok_api.py` line 168). -/
def grokAuthInvalidationCall : String :=
  "mark_key_invalid"

/-! ## Helper lemmas -/

/-- Looking up a key that no earlier binding carries reaches the final
binding. -/
theorem lookup_append_last (l : List (String × String)) (k v : String)
    (h : ∀ kv ∈ l, kv.1 ≠ k) : (l ++ [(k, v)]).lookup k = some v := by
  induction l with
  | nil => simp [List.lookup]
  | cons x xs ih =>
    have hx : x.1 ≠ k := h x (by simp)
    have : (k == x.1) = false := by
      simp [beq_iff_eq]
      exact fun hk => hx hk.symm
    simp only [List.cons_append, List.lookup, this]
    exact ih fun kv hkv => h kv (by simp [hkv])

/-- `dictInsert` makes the inserted value the one observed at its key. -/
theorem lookup_dictInsert (m : List (String × String)) (k v : String) :
    (dictInsert m k v).lookup k = some v := by
  refine lookup_append_last _ _ _ fun kv hkv => ?_
  have := List.of_mem_filter hkv
  simpa [bne_iff_ne] using this

/-- `memDrain` returns exactly the queue contents in order. -/
theorem memDrain_eq (l : List α) : memDrain l = l := by
  induction l with
  | nil => rfl
  | cons x xs ih => simp [memDrain, ih]

/-- Folding `enqueue` appends the items in call order. -/
theorem memEnqueueAll_eq (q : List α) (xs : List (α × Int)) :
    memEnqueueAll q xs = q ++ xs.map Prod.fst := by
  induction xs generalizing q with
  | nil => simp [memEnqueueAll]
  | cons x xs ih =>
    simp only [memEnqueueAll, List.foldl_cons] at *
    rw [ih (memEnqueue q x.1 x.2)]
    simp [memEnqueue]

/-! ## C1 — key invalidation -/

/-- C1: the claim says an AUTH-classified error marks the key invalid and
every later `GetNext` cycle skips it.  In the code, the AUTH handler of
`GrokAPIService.call_api` invokes `mark_key_invalid` on the key manager,
but `APIKeyManager` defines no such method (and no invalid flag at all):
the attribute lookup fails, so the handler raises `AttributeError`
instead of marking anything, and `get_next_key` never consults any
invalid flag. -/
theorem c1_mark_invalid_is_missing :
    lookupMethod apiKeyManagerMethods grokAuthInvalidationCall = none := by
  decide

/-! ## C3 — double StoreResponse -/

/-- C3 counterexample: storing `R1` then `R2` under one id leaves `R2`
observable in both backends — the claim that `GetResponse` still returns
`R1` (first publish wins) is false. -/
theorem c3_counterexample :
    memGetResponse
      (memStoreResponse (memStoreResponse [] "req1" "R1") "req1" "R2") "req1"
      = some "R2" ∧
    redisGetResponse
      (redisStoreResponse
        (redisStoreResponse [] "response:" "req1" "R1") "response:" "req1" "R2")
      "response:" "req1" = some "R2" ∧
    some "R2" ≠ some "R1" := by
  refine ⟨by decide, by decide, by decide⟩

/-- C3 (amended): `StoreResponse` overwrites — after
`StoreResponse(id, R1)` then `StoreResponse(id, R2)`, `GetResponse(id)`
returns `R2` in both the memory and the persistent backend: the last
publish wins and no publish is a no-op. -/
theorem c3_last_publish_wins (m kvs : List (String × String))
    (pre id r1 r2 : String) (h : r2 ≠ "") :
    memGetResponse (memStoreResponse (memStoreResponse m id r1) id r2) id
      = some r2 ∧
    redisGetResponse
      (redisStoreResponse (redisStoreResponse kvs pre id r1) pre id r2) pre id
      = some r2 := by
  constructor
  · simp [memGetResponse, memStoreResponse, lookup_dictInsert, h]
  · simp [redisGetResponse, redisStoreResponse, lookup_dictInsert, h]

/-- C3 witness for `c3_last_publish_wins`. -/
theorem c3_last_publish_wins_witness :
    memGetResponse
      (memStoreResponse (memStoreResponse [] "req1" "R1") "req1" "R2") "req1"
      = some "R2" ∧
    redisGetResponse
      (redisStoreResponse
        (redisStoreResponse [] "response:" "req1" "R1") "response:" "req1" "R2")
      "response:" "req1" = some "R2" :=
  c3_last_publish_wins [] [] "response:" "req1" "R1" "R2" (by decide)

/-! ## C9 — dispatcher retry budget -/

/-- C9 counterexample: with `FAILOVER_PROVIDERS = ""` there are no
backups, yet `process_queue_item` computes `max_retries = 2` because
Python's `"".split(",")` is `[""]`; the claimed `len(backups) + 1 = 1`
does not match. -/
theorem c9_counterexample :
    processorMaxRetries "" = 2 ∧
    (parseFailoverProviders "").length + 1 = 1 ∧
    processorMaxRetries "" ≠ (parseFailoverProviders "").length + 1 := by
  refine ⟨by decide, by decide, by decide⟩

/-- C9 (amended): the dispatcher's retry budget is the number of
comma-separated fields of `FAILOVER_PROVIDERS` plus one.  This equals the
number of configured backups plus one exactly when the string is
non-empty and no field is blank; the empty string yields budget 2, and
blank entries are counted as if they were backups. -/
theorem c9_retry_budget (s : String) :
    processorMaxRetries s = (pySplit ',' s).length + 1 ∧
    (s ≠ "" → (∀ f ∈ pySplit ',' s, pyStrip f ≠ "") →
      processorMaxRetries s = (parseFailoverProviders s).length + 1) := by
  refine ⟨rfl, fun hs hf => ?_⟩
  unfold processorMaxRetries parseFailoverProviders
  rw [if_neg hs]
  rw [List.filter_eq_self.mpr ?_, List.length_map]
  intro a ha
  rcases List.mem_map.mp ha with ⟨f, hfmem, rfl⟩
  simpa using hf f hfmem

/-- C9 witness for `c9_retry_budget`. -/
theorem c9_retry_budget_witness :
    processorMaxRetries "openai" = (pySplit ',' "openai").length + 1 ∧
    processorMaxRetries "openai" = (parseFailoverProviders "openai").length + 1 :=
  ⟨(c9_retry_budget "openai").1,
    (c9_retry_budget "openai").2 (by decide) (by decide)⟩

/-! ## C2 — failover-mode invariant -/

/-- Provider rotation always leaves a state satisfying the forward
invariant, whatever state it starts from. -/
theorem switchToNext_inv (s : FMState) : FMInv (switchToNext s) := by
  unfold FMInv switchToNext
  split
  · intro h; simp at h
  · split
    · intro _; rfl
    · intro h; simp at h

/-- Every failover-manager event preserves the forward invariant. -/
theorem applyEvent_inv (s : FMState) (e : FMEvent) (h : FMInv s) :
    FMInv (applyEvent s e) := by
  cases e with
  | success p =>
    show FMInv (reportSuccess p s)
    unfold reportSuccess
    dsimp only
    split
    · split
      · intro h'; simp at h'
      · exact h
    · exact h
  | failure p =>
    show FMInv (reportFailure p s)
    unfold reportFailure markUnavailable
    dsimp only
    split
    · exact h
    · split
      · split
        · exact switchToNext_inv _
        · exact h
      · exact h
  | recovery p healthy =>
    show FMInv (checkRecovery p healthy s)
    unfold checkRecovery
    dsimp only
    split
    · exact h
    · split
      · split
        · intro h'; simp at h'
        · exact h
      · exact h
  | force p =>
    show FMInv (forceFailover p s)
    intro h'
    simpa [forceFailover] using h'
  | reset p => exact h
  | pass p => exact h
  | fail p => exact h
  | rotate => exact switchToNext_inv s

/-- The forward invariant holds in every state reachable from the
initial state. -/
theorem runEvents_inv (s0 : FMState) (es : List FMEvent) (h : FMInv s0) :
    FMInv (runEvents s0 es) := by
  induction es generalizing s0 with
  | nil => exact h
  | cons e es ih => exact ih (applyEvent s0 e) (applyEvent_inv s0 e h)

/-- C2 counterexample: primary `grok`, backup `openai`, threshold 1.
After `grok` fails (switching to `openai`, entering failover mode) and
then `openai` fails (rotation finds no available provider and resets
`current_provider` to the primary without clearing the flag), the state
has `current_provider = primary` while `in_failover_mode = true`, so the
claimed biconditional is false in a reachable state. -/
theorem c2_counterexample :
    (runEvents (initState "grok" ["openai"] 1 true)
        [.failure "grok", .failure "openai"]).current
      = (runEvents (initState "grok" ["openai"] 1 true)
        [.failure "grok", .failure "openai"]).primary ∧
    (runEvents (initState "grok" ["openai"] 1 true)
        [.failure "grok", .failure "openai"]).mode = true ∧
    ¬ ((runEvents (initState "grok" ["openai"] 1 true)
          [.failure "grok", .failure "openai"]).current
        ≠ (runEvents (initState "grok" ["openai"] 1 true)
          [.failure "grok", .failure "openai"]).primary ↔
       (runEvents (initState "grok" ["openai"] 1 true)
          [.failure "grok", .failure "openai"]).mode = true) := by
  refine ⟨by decide, by decide, by decide⟩

/-- C2 (amended): only the forward implication is invariant — in every
state reachable by any sequence of report-success, report-failure,
recovery-probe, force-switch, reset, health-probe and rotation events
from the initial state, `current_provider ≠ primary` implies
`in_failover_mode = true`.  The converse fails once every provider is
unavailable (see `c2_counterexample`). -/
theorem c2_failover_mode_forward (primary : String) (failovers : List String)
    (threshold : Nat) (enable : Bool) (es : List FMEvent)
    (h : (runEvents (initState primary failovers threshold enable) es).current
      ≠ (runEvents (initState primary failovers threshold enable) es).primary) :
    (runEvents (initState primary failovers threshold enable) es).mode = true :=
  runEvents_inv _ es (fun h' => absurd rfl h') h

/-- C2 witness for `c2_failover_mode_forward`. -/
theorem c2_failover_mode_forward_witness :
    (runEvents (initState "grok" ["openai"] 1 true) [.failure "grok"]).mode
      = true :=
  c2_failover_mode_forward "grok" ["openai"] 1 true [.failure "grok"] (by decide)

/-! ## C6 — provider rotation -/

/-- C6 counterexample: in the initial state (primary `grok` available,
current provider already the primary, backup `openai` available),
`_switch_to_next_available_provider` does not select the primary: the
available-primary branch returns only when `current ≠ primary`, so the
code falls through to the backup scan and switches to `openai`, even
entering failover mode. -/
theorem c6_counterexample :
    (initState "grok" ["openai"] 3 true).avail
        (initState "grok" ["openai"] 3 true).primary = true ∧
    (switchToNext (initState "grok" ["openai"] 3 true)).current = "openai" ∧
    (switchToNext (initState "grok" ["openai"] 3 true)).current
      ≠ (initState "grok" ["openai"] 3 true).primary ∧
    (switchToNext (initState "grok" ["openai"] 3 true)).mode = true := by
  refine ⟨by decide, by decide, by decide, by decide⟩

/-- C6 (amended): rotation selects the primary whenever the primary is
available *and the current provider differs from it* (as holds at every
call site, since the code rotates only after the current provider was
marked unavailable); when the primary is unavailable it selects the
first available backup in declared order, entering failover mode; and
when no provider is available it sets `current_provider` to the primary,
leaving the mode flag untouched. -/
theorem c6_rotation (s : FMState) :
    (s.avail s.primary = true → s.current ≠ s.primary →
      (switchToNext s).current = s.primary ∧ (switchToNext s).mode = false) ∧
    (s.avail s.primary = false →
      ∀ b, s.failoverProviders.find? (fun p => s.avail p) = some b →
        (switchToNext s).current = b ∧ (switchToNext s).mode = true) ∧
    (s.avail s.primary = false →
      s.failoverProviders.find? (fun p => s.avail p) = none →
        (switchToNext s).current = s.primary ∧ (switchToNext s).mode = s.mode) := by
  refine ⟨fun h1 h2 => ?_, fun h1 b hb => ?_, fun h1 hb => ?_⟩
  · have hcond : (s.avail s.primary && s.current != s.primary) = true := by
      simp [h1, bne_iff_ne, h2]
    simp [switchToNext, hcond]
  · have hcond : (s.avail s.primary && s.current != s.primary) = false := by
      simp [h1]
    simp [switchToNext, hcond, hb]
  · have hcond : (s.avail s.primary && s.current != s.primary) = false := by
      simp [h1]
    simp [switchToNext, hcond, hb]

/-- C6 witness for `c6_rotation`, hitting all three branches at concrete
states. -/
theorem c6_rotation_witness :
    ((switchToNext ⟨"grok", ["openai"], "openai", true, fun _ => true,
        fun _ => 0, 3, true⟩).current = "grok" ∧
      (switchToNext ⟨"grok", ["openai"], "openai", true, fun _ => true,
        fun _ => 0, 3, true⟩).mode = false) ∧
    ((switchToNext ⟨"grok", ["openai"], "grok", false, fun p => p == "openai",
        fun _ => 0, 3, true⟩).current = "openai" ∧
      (switchToNext ⟨"grok", ["openai"], "grok", false, fun p => p == "openai",
        fun _ => 0, 3, true⟩).mode = true) ∧
    ((switchToNext ⟨"grok", ["openai"], "openai", true, fun _ => false,
        fun _ => 0, 3, true⟩).current = "grok" ∧
      (switchToNext ⟨"grok", ["openai"], "openai", true, fun _ => false,
        fun _ => 0, 3, true⟩).mode = true) :=
  ⟨(c6_rotation _).1 rfl (by decide),
    (c6_rotation _).2.1 rfl "openai" (by decide),
    by
      have h := (c6_rotation ⟨"grok", ["openai"], "openai", true, fun _ => false,
        fun _ => 0, 3, true⟩).2.2 rfl (by decide)
      exact ⟨h.1, h.2⟩⟩

/-! ## C7 — rate-limiter deadline -/

/-- `acquire` never changes the configured rate. -/
theorem acquire_rate (s : RLState) (now : ℚ) : ((acquire s now).2).rate = s.rate := by
  unfold acquire
  dsimp only
  split <;> rfl

/-- Any result `wait_for_token` returns is produced no later than
`max(now, start + maxWait + sleepInterval)`, and a `false` result is
only returned once the elapsed time strictly exceeds `maxWait`. -/
theorem waitForToken_time_bound (fuel : Nat) (s : RLState)
    (start now maxWait : ℚ) (b : Bool) (tEnd : ℚ) (s'' : RLState)
    (h : waitForToken fuel s start now maxWait = some (b, tEnd, s'')) :
    tEnd ≤ max now (start + maxWait + sleepInterval s.rate) ∧
      (b = false → maxWait < tEnd - start) := by
  induction fuel generalizing s now b tEnd s'' with
  | zero => simp [waitForToken] at h
  | succ fuel ih =>
    rw [waitForToken] at h
    rcases hacq : acquire s now with ⟨ok, s1⟩
    rw [hacq] at h
    have hr : s1.rate = s.rate := by
      have h2 := acquire_rate s now
      rw [hacq] at h2
      exact h2
    dsimp only at h
    cases ok with
    | true =>
      simp only [if_true] at h
      simp only [Option.some.injEq, Prod.mk.injEq] at h
      obtain ⟨rfl, rfl, rfl⟩ := h
      exact ⟨le_max_left _ _, fun hb => by simp at hb⟩
    | false =>
      simp only [Bool.false_eq_true, if_false] at h
      split at h
      case isTrue hlt =>
        simp only [Option.some.injEq, Prod.mk.injEq] at h
        obtain ⟨rfl, rfl, rfl⟩ := h
        exact ⟨le_max_left _ _, fun _ => hlt⟩
      case isFalse hlt =>
        have hres := ih s1 (now + sleepInterval s1.rate) b tEnd s'' h
        rw [hr] at hres
        refine ⟨?_, hres.2⟩
        have hnow : now ≤ start + maxWait := by
          have := not_lt.mp hlt
          linarith
        have hmax :
            max (now + sleepInterval s.rate)
              (start + maxWait + sleepInterval s.rate)
            = start + maxWait + sleepInterval s.rate :=
          max_eq_right (by linarith)
        have h1 := hres.1
        rw [hmax] at h1
        exact h1.trans (le_max_right _ _)

/-- C7 counterexample: bucket of rate 1 with no tokens, acquired at
time 0 with `max_wait = 0.3`.  The first failed acquire sees elapsed 0
(not past the deadline), sleeps `min(1/rate, 0.5) = 0.5`, and only the
second failed acquire observes the deadline — so the call returns
`false` at time 0.5, keeping the caller blocked strictly beyond
`max_wait`, contrary to the claim. -/
theorem c7_counterexample :
    waitForToken 3 ⟨0, 0, 1⟩ 0 0 (3 / 10)
      = some (false, 1 / 2, ⟨1 / 2, 1 / 2, 1⟩) ∧
    (3 / 10 : ℚ) < 1 / 2 := by
  refine ⟨by norm_num [waitForToken, acquire, sleepInterval], by norm_num⟩

/-- C7 (amended): `wait_for_token(max_wait)` returns `true` exactly when
an `acquire` obtains a token, and it stops waiting within
`max_wait + min(1/rate, 0.5)` of the call; it can, however, keep the
caller blocked beyond `max_wait` by up to one sleep interval, because
the deadline is checked only after each failed acquire.  A `false`
return happens only strictly after `max_wait` has elapsed. -/
theorem c7_deadline_overshoot (fuel : Nat) (s : RLState) (t maxWait : ℚ)
    (b : Bool) (tEnd : ℚ) (s'' : RLState)
    (hrate : 0 < s.rate) (hmw : 0 ≤ maxWait)
    (h : waitForToken fuel s t t maxWait = some (b, tEnd, s'')) :
    tEnd - t ≤ maxWait + sleepInterval s.rate ∧
      (b = false → maxWait < tEnd - t) := by
  have hd : 0 < sleepInterval s.rate := by
    have h1 : (0 : ℚ) < 1 / s.rate := by positivity
    have h2 : (0 : ℚ) < 1 / 2 := by norm_num
    exact lt_min h1 h2
  have hb := waitForToken_time_bound fuel s t t maxWait b tEnd s'' h
  refine ⟨?_, hb.2⟩
  have hmax : max t (t + maxWait + sleepInterval s.rate)
      = t + maxWait + sleepInterval s.rate :=
    max_eq_right (by linarith)
  have := hb.1
  rw [hmax] at this
  linarith

/-- C7 witness for `c7_deadline_overshoot`. -/
theorem c7_deadline_overshoot_witness :
    (1 / 2 : ℚ) - 0 ≤ 3 / 10 + sleepInterval 1 ∧
      (false = false → (3 / 10 : ℚ) < 1 / 2 - 0) :=
  c7_deadline_overshoot 3 ⟨0, 0, 1⟩ 0 (3 / 10) false (1 / 2) ⟨1 / 2, 1 / 2, 1⟩
    (by norm_num) (by norm_num)
    (by norm_num [waitForToken, acquire, sleepInterval])

/-! ## C4 — persistent queue ordering -/

/-- Millisecond timestamps of realistic clocks are at least `10^12`. -/
theorem tsMs_lower (ts : ℚ) (h : 10 ^ 9 ≤ ts) : (10 ^ 12 : Int) ≤ tsMs ts := by
  rw [tsMs, Int.le_floor]
  push_cast
  nlinarith

/-- Millisecond timestamps of realistic clocks are below `10^13`. -/
theorem tsMs_upper (ts : ℚ) (h : ts < 10 ^ 10) : tsMs ts < (10 ^ 13 : Int) := by
  rw [tsMs, Int.floor_lt]
  push_cast
  nlinarith

/-- For well-formed members the composite-score order refines the
claimed retry-first, then (priority, enqueue-time) order. -/
theorem score_strict_mono (x y : QItem) (hx : WFItem x) (hy : WFItem y)
    (hlt : claimLT x y) : score x < score y := by
  cases x with
  | retry t1 =>
    cases y with
    | retry t2 => exact hlt
    | fresh p2 t2 =>
      obtain ⟨hp2, _, hts2⟩ := hy
      have hm := tsMs_lower t2 hts2.1
      have ht1 : t1 < 10 ^ 10 := hx.2
      have hcast : ((10 ^ 12 : Int) : ℚ) ≤ ((p2 * 10 ^ 13 + tsMs t2 : Int) : ℚ) := by
        have h9 : (10 ^ 12 : Int) ≤ p2 * 10 ^ 13 + tsMs t2 := by nlinarith
        exact_mod_cast h9
      show t1 < ((p2 * 10 ^ 13 + tsMs t2 : Int) : ℚ)
      calc t1 < 10 ^ 10 := ht1
        _ ≤ ((10 ^ 12 : Int) : ℚ) := by norm_num
        _ ≤ _ := hcast
  | fresh p1 t1 =>
    cases y with
    | retry t2 => exact absurd hlt (by simp [claimLT])
    | fresh p2 t2 =>
      obtain ⟨hp1, hp1w, hts1⟩ := hx
      obtain ⟨hp2, hp2w, hts2⟩ := hy
      have hm1 := tsMs_upper t1 hts1.2
      have hm2 := tsMs_lower t2 hts2.1
      have hint : p1 * 10 ^ 13 + tsMs t1 < p2 * 10 ^ 13 + tsMs t2 := by
        rcases hlt with hp | ⟨rfl, hts⟩
        · have h1 : p1 + 1 ≤ p2 := hp
          nlinarith
        · linarith
      show ((p1 * 10 ^ 13 + tsMs t1 : Int) : ℚ) < ((p2 * 10 ^ 13 + tsMs t2 : Int) : ℚ)
      exact_mod_cast hint

/-- `zpopmin` of an empty sorted set only. -/
theorem extractMin_eq_none (q : List QItem) (h : extractMin q = none) : q = [] := by
  cases q with
  | nil => rfl
  | cons z zs =>
    rw [extractMin] at h
    cases hem : extractMin zs with
    | none => rw [hem] at h; simp at h
    | some mr =>
      rw [hem] at h
      dsimp only at h
      by_cases hle : score z ≤ score mr.1
      · rw [if_pos hle] at h; simp at h
      · rw [if_neg hle] at h; simp at h

/-- `zpopmin` removes exactly one member, of minimal score. -/
theorem extractMin_perm_min (q : List QItem) :
    ∀ x q', extractMin q = some (x, q') →
      q.Perm (x :: q') ∧ ∀ y ∈ q', score x ≤ score y := by
  induction q with
  | nil => intro x q' h; simp [extractMin] at h
  | cons z zs ih =>
    intro x q' h
    rw [extractMin] at h
    cases hem : extractMin zs with
    | none =>
      rw [hem] at h
      simp only [Option.some.injEq, Prod.mk.injEq] at h
      obtain ⟨rfl, rfl⟩ := h
      have hzs : zs = [] := extractMin_eq_none zs hem
      subst hzs
      exact ⟨List.Perm.refl _, by simp⟩
    | some mr =>
      rcases mr with ⟨m, rest⟩
      rw [hem] at h
      have ihm := ih m rest hem
      dsimp only at h
      by_cases hle : score z ≤ score m
      · rw [if_pos hle] at h
        simp only [Option.some.injEq, Prod.mk.injEq] at h
        obtain ⟨rfl, rfl⟩ := h
        refine ⟨List.Perm.refl _, fun y hy => ?_⟩
        have hmem : y ∈ m :: rest := (ihm.1.mem_iff).mp hy
        rcases List.mem_cons.mp hmem with rfl | h1
        · exact hle
        · exact le_trans hle (ihm.2 y h1)
      · rw [if_neg hle] at h
        simp only [Option.some.injEq, Prod.mk.injEq] at h
        obtain ⟨rfl, rfl⟩ := h
        constructor
        · exact (ihm.1.cons z).trans (List.Perm.swap m z rest)
        · intro y hy
          rcases List.mem_cons.mp hy with rfl | h1
          · exact le_of_lt (lt_of_not_le hle)
          · exact ihm.2 y h1

/-- Queue operations with realistic timestamps keep all members
well-formed. -/
theorem applyQOp_wf (q : List QItem) (op : QOp)
    (hq : ∀ i ∈ q, WFItem i) (hop : WFOp op) :
    ∀ i ∈ applyQOp q op, WFItem i := by
  cases op with
  | enq p ts =>
    intro i hi
    rcases List.mem_append.mp hi with h1 | h1
    · exact hq i h1
    · rcases List.mem_singleton.mp h1 with rfl
      refine ⟨le_max_left _ _, ?_, hop⟩
      have hmin : min 100 p ≤ 100 := min_le_left _ _
      exact max_le (by norm_num) hmin
  | penq ts =>
    intro i hi
    rcases List.mem_append.mp hi with h1 | h1
    · exact hq i h1
    · rcases List.mem_singleton.mp h1 with rfl
      exact hop
  | deq =>
    intro i hi
    rw [applyQOp] at hi
    cases hem : extractMin q with
    | none => rw [hem] at hi; exact hq i hi
    | some mr =>
      rw [hem] at hi
      have hperm := extractMin_perm_min q mr.1 mr.2 (by rw [hem])
      exact hq i (hperm.1.mem_iff.mpr (List.mem_cons_of_mem _ hi))

/-- Well-formedness of the queue contents is invariant under any run. -/
theorem runQOps_wf_aux (ops : List QOp) :
    ∀ q : List QItem, (∀ i ∈ q, WFItem i) → (∀ op ∈ ops, WFOp op) →
      ∀ i ∈ ops.foldl applyQOp q, WFItem i := by
  induction ops with
  | nil => intro q hq _ i hi; exact hq i hi
  | cons op ops ih =>
    intro q hq hops i hi
    rw [List.foldl_cons] at hi
    exact ih (applyQOp q op)
      (applyQOp_wf q op hq (hops op (by simp)))
      (fun o ho => hops o (by simp [ho])) i hi

/-- C4: over any operation sequence from the empty queue whose
timestamps come from a realistic clock, each `Dequeue` pops an item that
no remaining item precedes in the claimed order (retries first by
original timestamp, then fresh items by (priority, enqueue-time));
fresh items carry score `priority * 10^13 + enqueued_at_ms`, retry items
carry their raw timestamp as score (below `10^13`), and every retry
scores below every fresh item. -/
theorem c4_persistent_queue_order (ops : List QOp)
    (hops : ∀ op ∈ ops, WFOp op) :
    (∀ x q', extractMin (runQOps ops) = some (x, q') →
      ∀ y ∈ q', ¬ claimLT y x) ∧
    (∀ (p : Int) (ts : ℚ), 0 ≤ p → p ≤ 100 →
      score (.fresh (clampPriority p) ts)
        = (p : ℚ) * 10 ^ 13 + ((tsMs ts : Int) : ℚ)) ∧
    (∀ ts : ℚ, ts < 10 ^ 13 → score (.retry ts) < 10 ^ 13) ∧
    (∀ (t1 : ℚ) (p : Int) (t2 : ℚ), RealisticTs t1 → RealisticTs t2 →
      0 ≤ p → p ≤ 100 → score (.retry t1) < score (.fresh p t2)) := by
  refine ⟨?_, ?_, ?_, ?_⟩
  · intro x q' hext y hy hlt
    have hwf : ∀ i ∈ runQOps ops, WFItem i :=
      runQOps_wf_aux ops [] (by simp) hops
    have hperm := extractMin_perm_min (runQOps ops) x q' hext
    have hxq : x ∈ runQOps ops := hperm.1.mem_iff.mpr (by simp)
    have hyq : y ∈ runQOps ops := hperm.1.mem_iff.mpr (by simp [hy])
    have hlt' := score_strict_mono y x (hwf y hyq) (hwf x hxq) hlt
    have hle := hperm.2 y hy
    linarith
  · intro p ts hp0 hp100
    have hcl : clampPriority p = p := by
      rw [clampPriority, min_eq_right hp100, max_eq_right hp0]
    rw [hcl, score]
    push_cast
    ring
  · intro ts hts
    exact hts
  · intro t1 p t2 ht1 ht2 hp hp100
    exact score_strict_mono (.retry t1) (.fresh p t2) ht1 ⟨hp, hp100, ht2⟩ trivial

/-- C4 witness for `c4_persistent_queue_order`. -/
theorem c4_persistent_queue_order_witness :
    score (QItem.retry (2 * 10 ^ 9)) < score (QItem.fresh 10 (2 * 10 ^ 9)) :=
  (c4_persistent_queue_order [QOp.enq 10 (2 * 10 ^ 9), QOp.penq (2 * 10 ^ 9)]
      (by norm_num [WFOp, RealisticTs])).2.2.2
    (2 * 10 ^ 9) 10 (2 * 10 ^ 9) (by norm_num [RealisticTs])
    (by norm_num [RealisticTs]) (by norm_num) (by norm_num)

/-! ## C5 — reconciliation -/

/-- Draining writes back exactly the drained items, in order. -/
theorem syncWrites_fst (mem : List QItem) (times : List Int)
    (h : times.length = mem.length) :
    (syncWrites mem times).map Prod.fst = mem := by
  induction mem generalizing times with
  | nil => simp [syncWrites]
  | cons i is ih =>
    cases times with
    | nil => simp at h
    | cons t ts =>
      have h' : ts.length = is.length := by simpa using h
      show ((i, syncScore t) :: syncWrites is ts).map Prod.fst = i :: is
      simp only [List.map_cons]
      rw [ih ts h']

/-- C5 counterexample: a perfectly ordinary fresh `Enqueue` item of
priority 0 (score `ts_ms ≈ 2·10^12`) scores strictly *below* a
reconciled item (score `10^14 + sync_ms`), so the reconciliation band is
not below the score of every ordinary fresh item as claimed. -/
theorem c5_counterexample :
    score (QItem.fresh 0 (2 * 10 ^ 9)) < syncScore (2 * 10 ^ 12) ∧
    WFItem (QItem.fresh 0 (2 * 10 ^ 9)) := by
  constructor
  · show ((0 * 10 ^ 13 + tsMs (2 * 10 ^ 9) : Int) : ℚ)
      < ((2 * 10 ^ 12 + 10 ^ 14 : Int) : ℚ)
    have hts : tsMs (2 * 10 ^ 9) = 2 * 10 ^ 12 := by
      rw [tsMs]
      norm_num
    rw [hts]
    norm_num
  · exact ⟨le_refl 0, by norm_num, by constructor <;> norm_num⟩

/-- C5 (amended): reconciliation is content-preserving — every item the
memory secondary held is written exactly once back into the persistent
store and the secondary ends empty — and each rewritten item's score
`10^14 + sync_ms` lies strictly above the retry band `10^13`; but it is
*not* below every ordinary fresh item: it exceeds every fresh item of
priority ≤ 9 (and competes with priority-10 items), lying strictly below
only the fresh items of priority ≥ 11. -/
theorem c5_reconciliation (mem : List QItem) (times : List Int)
    (hlen : times.length = mem.length) :
    ((syncWrites mem times).map Prod.fst = mem ∧ (syncResult mem times).2 = []) ∧
    (∀ t : Int, 0 ≤ t → (10 ^ 13 : ℚ) < syncScore t) ∧
    (∀ (t p : Int) (ts : ℚ), t < 10 ^ 13 → 11 ≤ p → p ≤ 100 →
      RealisticTs ts → syncScore t < score (.fresh p ts)) := by
  refine ⟨⟨syncWrites_fst mem times hlen, rfl⟩, fun t ht => ?_, ?_⟩
  · show (10 ^ 13 : ℚ) < ((t + 10 ^ 14 : Int) : ℚ)
    have hi : (10 ^ 13 : Int) < t + 10 ^ 14 := by linarith
    calc (10 ^ 13 : ℚ) = ((10 ^ 13 : Int) : ℚ) := by norm_num
      _ < _ := by exact_mod_cast hi
  · intro t p ts ht hp hp100 hts
    have hm := tsMs_lower ts hts.1
    have hi : t + 10 ^ 14 < p * 10 ^ 13 + tsMs ts := by nlinarith
    show ((t + 10 ^ 14 : Int) : ℚ) < ((p * 10 ^ 13 + tsMs ts : Int) : ℚ)
    exact_mod_cast hi

/-- C5 witness for `c5_reconciliation`. -/
theorem c5_reconciliation_witness :
    ((syncWrites [QItem.retry (2 * 10 ^ 9)] [2 * 10 ^ 12]).map Prod.fst
        = [QItem.retry (2 * 10 ^ 9)] ∧
      (syncResult [QItem.retry (2 * 10 ^ 9)] [2 * 10 ^ 12]).2 = []) ∧
    (10 ^ 13 : ℚ) < syncScore (2 * 10 ^ 12) ∧
    syncScore (2 * 10 ^ 12) < score (.fresh 11 (2 * 10 ^ 9)) := by
  have h := c5_reconciliation [QItem.retry (2 * 10 ^ 9)] [2 * 10 ^ 12] (by simp)
  exact ⟨h.1, h.2.1 (2 * 10 ^ 12) (by norm_num),
    h.2.2 (2 * 10 ^ 12) 11 (2 * 10 ^ 9) (by norm_num) (by norm_num) (by norm_num)
      (by constructor <;> norm_num)⟩

/-! ## C8 — per-key 1-second budget -/

/-- Pruning twice at nondecreasing instants equals pruning once at the
later instant. -/
theorem prune_prune (hist : List ℚ) (t1 t2 : ℚ) (h : t1 ≤ t2) :
    pruneWindow (pruneWindow hist t1) t2 = pruneWindow hist t2 := by
  unfold pruneWindow
  rw [List.filter_filter]
  apply List.filter_congr
  intro x _
  by_cases h2 : t2 - x ≤ 1
  · have h1 : t1 - x ≤ 1 := by linarith
    simp [h1, h2]
  · simp [h2]

/-- Pruning after appending the accept instant keeps that instant. -/
theorem prune_append (hist : List ℚ) (t : ℚ) :
    pruneWindow (hist ++ [t]) t = pruneWindow hist t ++ [t] := by
  unfold pruneWindow
  rw [List.filter_append]
  simp

/-- The pruned window length is the 1-second look-back count. -/
theorem prune_length (hist : List ℚ) (t : ℚ) :
    (pruneWindow hist t).length = hist.countP (fun x => decide (t - x ≤ 1)) := by
  unfold pruneWindow
  rw [List.countP_eq_length_filter]

/-- A nondecreasing trace that `runKey` admits from the pruned window of
an arbitrary history is valid over the full history: the stored pruned
window and the full-history 1-second look-back agree. -/
theorem runKey_valid (R : Nat) (ts : List ℚ) :
    ∀ (hist : List ℚ) (tprev : ℚ),
      List.Chain' (· ≤ ·) (tprev :: ts) →
      (runKey R (pruneWindow hist tprev) ts).isSome →
      ValidHist R hist ts := by
  induction ts with
  | nil => intro hist tprev _ _; trivial
  | cons t ts ih =>
    intro hist tprev hchain hsome
    have hle : tprev ≤ t := (List.chain'_cons.mp hchain).1
    have hchain' : List.Chain' (· ≤ ·) (t :: ts) := (List.chain'_cons.mp hchain).2
    rw [runKey] at hsome
    unfold keyAccept at hsome
    rw [prune_prune hist tprev t hle] at hsome
    by_cases hlen : (pruneWindow hist t).length < R
    · rw [if_pos hlen] at hsome
      dsimp only at hsome
      refine ⟨by rw [← prune_length]; exact hlen, ?_⟩
      rw [← prune_append] at hsome
      exact ih (hist ++ [t]) t hchain' hsome
    · rw [if_neg hlen] at hsome
      simp at hsome

/-- Validity of the accept trace bounds the count of accepts in every
closed 1-second window by the budget. -/
theorem validHist_window (R : Nat) (l : List ℚ) :
    ∀ hist : List ℚ,
      (∀ b : ℚ, hist.countP (fun x => decide (b ≤ x ∧ x ≤ b + 1)) ≤ R) →
      ValidHist R hist l →
      ∀ a : ℚ, (hist ++ l).countP (fun x => decide (a ≤ x ∧ x ≤ a + 1)) ≤ R := by
  induction l with
  | nil => intro hist hb _ a; simpa using hb a
  | cons t ts ih =>
    intro hist hb hv a
    obtain ⟨h1, hrest⟩ := hv
    have hb' : ∀ b : ℚ,
        (hist ++ [t]).countP (fun x => decide (b ≤ x ∧ x ≤ b + 1)) ≤ R := by
      intro b
      rw [List.countP_append]
      by_cases hwin : b ≤ t ∧ t ≤ b + 1
      · have hmono : hist.countP (fun x => decide (b ≤ x ∧ x ≤ b + 1))
            ≤ hist.countP (fun x => decide (t - x ≤ 1)) := by
          apply List.countP_mono_left
          intro x _ hx
          simp only [decide_eq_true_eq] at hx ⊢
          obtain ⟨hbx, _⟩ := hx
          linarith [hwin.2]
        have hsum : hist.countP (fun x => decide (b ≤ x ∧ x ≤ b + 1)) + 1 ≤ R := by
          omega
        simpa [hwin] using hsum
      · have hz : ([t].countP (fun x => decide (b ≤ x ∧ x ≤ b + 1))) = 0 := by
          simp [hwin]
        rw [hz]
        simpa using hb b
    have := ih (hist ++ [t]) hb' hrest a
    simpa using this

/-- C8: for every key, over any nondecreasing trace of accept instants
that `get_next_key` admitted (each accept saw its pruned 1-second window
shorter than `RATE_LIMIT_RPS` and appended the current instant), the
number of hand-outs of the key inside any closed 1-second window is at
most `RATE_LIMIT_RPS`. -/
theorem c8_per_key_window (R : Nat) (ts : List ℚ)
    (hsort : List.Chain' (· ≤ ·) ts)
    (hrun : (runKey R [] ts).isSome) (a : ℚ) :
    countInWindow ts a ≤ R := by
  cases ts with
  | nil => simp [countInWindow]
  | cons t0 rest =>
    have hchain : List.Chain' (· ≤ ·) (t0 :: t0 :: rest) :=
      List.chain'_cons.mpr ⟨le_refl t0, hsort⟩
    have hprune : pruneWindow [] t0 = [] := rfl
    have hvalid : ValidHist R [] (t0 :: rest) := by
      apply runKey_valid R (t0 :: rest) [] t0 hchain
      rw [hprune]
      exact hrun
    have := validHist_window R (t0 :: rest) [] (by intro b; simp) hvalid a
    simpa [countInWindow] using this

/-- C8 witness for `c8_per_key_window`. -/
theorem c8_per_key_window_witness : countInWindow [0, 0, 2] 0 ≤ 2 :=
  c8_per_key_window 2 [0, 0, 2] (by norm_num)
    (by norm_num [runKey, keyAccept, pruneWindow]) 0

/-! ## C10 — memory backend ignores priority -/

/-- C10: after degradation the memory backend ignores `Enqueue`'s
priority argument entirely — the stored queue is the same for any two
priorities —, a sequence of enqueues drains in pure insertion order, and
only `PriorityEnqueue` places an item ahead of the existing ones. -/
theorem c10_memory_ignores_priority {α : Type} :
    (∀ (q : List α) (item : α) (p1 p2 : Int),
      memEnqueue q item p1 = memEnqueue q item p2) ∧
    (∀ xs : List (α × Int), memDrain (memEnqueueAll [] xs) = xs.map Prod.fst) ∧
    (∀ (q : List α) (item : α), memPriorityEnqueue q item = item :: q) := by
  refine ⟨fun q item p1 p2 => rfl, fun xs => ?_, fun q item => rfl⟩
  rw [memEnqueueAll_eq, memDrain_eq, List.nil_append]

end SugarGrok
